import Mathlib

/-!
Verification of the key-value storage engine in `datastore/db.go`
(QuantumGurus/Lab4-KPI).

The engine is embedded shallowly:

* Machine strings and byte slices become `List Nat` (`Bytes`); files are
  byte lists, a segment is its file contents plus an in-memory
  key-to-offset association list, the engine state is a `Db` structure
  mirroring the Go `Db` struct.
* The record codec (`entry.go` is not among the provided sources; only its
  tests and callers are) is modelled from the spec, see the doc comments on
  `entry.Encode` and friends.
* Fallible file operations are modelled by explicit failure-injection
  parameters (`PutFaults`, the `createOk`/`writeOk` parameters of
  compaction): a `true`/`some` outcome is a successful syscall, the other
  branch follows the Go error path of the corresponding call site.
* Goroutines are serialized: `Db.put` is one full round trip through the
  `putOps`/`indexOps` channel processors, and a compaction run is one
  atomic step `Db.performOldSegmentsCompaction` (in Go it is a goroutine
  spawned by `CreateDataSegment`; the model exposes it as a separate step
  that can be interleaved between operations).
-/

namespace Datastore

/-- Byte sequences (Go `[]byte` / `string` contents). -/
abbrev Bytes := List Nat

/-- Little-endian 32-bit encoding of a number, as written by
`binary.LittleEndian.PutUint32`. -/
def le32 (n : Nat) : Bytes :=
  [n % 256, n / 256 % 256, n / 65536 % 256, n / 16777216 % 256]

/-- Little-endian 32-bit decoding of the first four bytes of a buffer, as
read by `binary.LittleEndian.Uint32` (call sites guard the length). -/
def readLe32 (b : Bytes) : Nat :=
  b.getD 0 0 + 256 * b.getD 1 0 + 65536 * b.getD 2 0 + 16777216 * b.getD 3 0

/-- One key/value record (the Go `entry` struct of the datastore package). -/
structure entry where
  key : Bytes
  value : Bytes
deriving DecidableEq, Repr

/-- Modelled from the spec: the record codec of `entry.go` is not among the
provided source files.  Record file layout (spec section 6):
`totalLength (u32) ++ keyLength (u32) ++ keyBytes ++ valueLength (u32) ++
valueBytes`, little-endian.  `totalLength` counts the whole record
including itself: `Recover` in `db.go` consumes exactly `totalLength` bytes
per record starting at the record head, and the repository test
`TestDb_Segmentation` expects three records with 1-byte keys and 4-byte
values to occupy 51 bytes, i.e. 12 bytes of headers per record. -/
def entry.Encode (e : entry) : Bytes :=
  le32 (12 + e.key.length + e.value.length) ++
    (le32 e.key.length ++ (e.key ++ (le32 e.value.length ++ e.value)))

/-- Modelled from the spec: `Length(record)` is the byte size of the encoded
form, used by the write path for the capacity check (`GetLength` in Go). -/
def entry.GetLength (e : entry) : Nat :=
  12 + e.key.length + e.value.length

/-- Modelled from the spec: `Decode` is the exact inverse of `Encode` and
must report a decode failure on malformed input rather than silently
return a wrong record. -/
def entry.Decode (b : Bytes) : Option entry :=
  let total := readLe32 b
  let kl := readLe32 (b.drop 4)
  let vl := readLe32 (b.drop (8 + kl))
  if b.length = 12 + kl + vl ∧ total = 12 + kl + vl then
    some { key := (b.drop 8).take kl, value := (b.drop (12 + kl)).take vl }
  else none

/-- Modelled from the spec: `ReadValueOnly` (`readValue` in Go) parses the
header of the record found at the head of the stream, skips the key and
returns just the value; insufficient bytes are an I/O-class failure,
modelled as `none`. -/
def readValue (b : Bytes) : Option Bytes :=
  if 8 ≤ b.length then
    let kl := readLe32 (b.drop 4)
    if 12 + kl ≤ b.length then
      let vl := readLe32 (b.drop (8 + kl))
      if 12 + kl + vl ≤ b.length then some ((b.drop (12 + kl)).take vl)
      else none
    else none
  else none

lemma le32_length (n : Nat) : (le32 n).length = 4 := rfl

lemma readLe32_le32_append (n : Nat) (ext : Bytes) (h : n < 4294967296) :
    readLe32 (le32 n ++ ext) = n := by
  simp only [readLe32, le32, List.cons_append, List.nil_append, List.getD_cons_zero,
    List.getD_cons_succ]
  omega

lemma readLe32_le32 (n : Nat) (h : n < 4294967296) : readLe32 (le32 n) = n := by
  simpa using readLe32_le32_append n [] h

lemma entry.encode_length (e : entry) :
    e.Encode.length = 12 + e.key.length + e.value.length := by
  simp [entry.Encode, le32]
  omega

lemma entry.encode_length_getLength (e : entry) : e.Encode.length = e.GetLength := by
  rw [entry.encode_length]; rfl

/-- Decomposition facts about an encoded record followed by arbitrary bytes. -/
lemma encode_drop4 (e : entry) (ext : Bytes) :
    (e.Encode ++ ext).drop 4 =
      le32 e.key.length ++ (e.key ++ (le32 e.value.length ++ (e.value ++ ext))) := by
  have hsplit : e.Encode ++ ext =
      le32 (12 + e.key.length + e.value.length) ++
        (le32 e.key.length ++ (e.key ++ (le32 e.value.length ++ (e.value ++ ext)))) := by
    simp [entry.Encode, List.append_assoc]
  rw [hsplit, List.drop_left' (le32_length _)]

lemma encode_drop8 (e : entry) (ext : Bytes) :
    (e.Encode ++ ext).drop 8 = e.key ++ (le32 e.value.length ++ (e.value ++ ext)) := by
  have hsplit : e.Encode ++ ext =
      (le32 (12 + e.key.length + e.value.length) ++ le32 e.key.length) ++
        (e.key ++ (le32 e.value.length ++ (e.value ++ ext))) := by
    simp [entry.Encode, List.append_assoc]
  have hlen : (le32 (12 + e.key.length + e.value.length) ++ le32 e.key.length).length = 8 := by
    simp only [List.length_append, le32_length]
  rw [hsplit, List.drop_left' hlen]

lemma encode_drop8kl (e : entry) (ext : Bytes) :
    (e.Encode ++ ext).drop (8 + e.key.length) =
      le32 e.value.length ++ (e.value ++ ext) := by
  have hsplit : e.Encode ++ ext =
      ((le32 (12 + e.key.length + e.value.length) ++ le32 e.key.length) ++ e.key) ++
        (le32 e.value.length ++ (e.value ++ ext)) := by
    simp [entry.Encode, List.append_assoc]
  have hlen : (((le32 (12 + e.key.length + e.value.length) ++ le32 e.key.length) ++
      e.key)).length = 8 + e.key.length := by
    simp only [List.length_append, le32_length]
  rw [hsplit, List.drop_left' hlen]

lemma encode_drop12kl (e : entry) (ext : Bytes) :
    (e.Encode ++ ext).drop (12 + e.key.length) = e.value ++ ext := by
  have hsplit : e.Encode ++ ext =
      (((le32 (12 + e.key.length + e.value.length) ++ le32 e.key.length) ++ e.key) ++
        le32 e.value.length) ++ (e.value ++ ext) := by
    simp [entry.Encode, List.append_assoc]
  have hlen : ((((le32 (12 + e.key.length + e.value.length) ++ le32 e.key.length) ++ e.key) ++
      le32 e.value.length)).length = 12 + e.key.length := by
    simp only [List.length_append, le32_length]
    omega
  rw [hsplit, List.drop_left' hlen]

/-- Reading just the value of an encoded record works even when more bytes
follow in the stream (positional reads inside a larger file). -/
lemma readValue_encode (e : entry) (ext : Bytes)
    (h : 12 + e.key.length + e.value.length < 4294967296) :
    readValue (e.Encode ++ ext) = some e.value := by
  have hlen : (e.Encode ++ ext).length = 12 + e.key.length + e.value.length + ext.length := by
    simp [entry.encode_length]
  have hkl : readLe32 ((e.Encode ++ ext).drop 4) = e.key.length := by
    rw [encode_drop4, readLe32_le32_append] <;> omega
  have hvl : readLe32 ((e.Encode ++ ext).drop (8 + e.key.length)) = e.value.length := by
    rw [encode_drop8kl, readLe32_le32_append] <;> omega
  rw [readValue, if_pos (by omega)]
  simp only [hkl]
  rw [if_pos (by omega), hvl, if_pos (by omega), encode_drop12kl]
  congr 1
  rw [List.take_append_of_le_length (Nat.le_refl _), List.take_length]

/-- Claim C9 round trip, general form. -/
lemma decode_encode (e : entry)
    (h : 12 + e.key.length + e.value.length < 4294967296) :
    entry.Decode e.Encode = some e := by
  have hT : readLe32 e.Encode = 12 + e.key.length + e.value.length := by
    have := readLe32_le32_append (12 + e.key.length + e.value.length)
      (le32 e.key.length ++ (e.key ++ (le32 e.value.length ++ e.value))) h
    simpa [entry.Encode] using this
  have hkl : readLe32 (e.Encode.drop 4) = e.key.length := by
    have := encode_drop4 e []
    rw [List.append_nil] at this
    rw [this, readLe32_le32_append] <;> omega
  have hvl : readLe32 (e.Encode.drop (8 + e.key.length)) = e.value.length := by
    have := encode_drop8kl e []
    rw [List.append_nil] at this
    rw [this, readLe32_le32_append] <;> omega
  have hkey : (e.Encode.drop 8).take e.key.length = e.key := by
    have h8 := encode_drop8 e []
    simp only [List.append_nil] at h8
    rw [h8, List.take_left]
  have hval : (e.Encode.drop (12 + e.key.length)).take e.value.length = e.value := by
    have h12 := encode_drop12kl e []
    simp only [List.append_nil] at h12
    rw [h12, List.take_length]
  rw [entry.Decode]
  simp only [hkl, hvl]
  rw [if_pos ⟨by rw [entry.encode_length], hT⟩, hkey, hval]

/-- Claim C9: for every record with a non-empty key (and representable
field lengths), `Decode` inverts `Encode` and `GetLength` is the length of
the encoded form. -/
theorem encode_decode_roundtrip (e : entry) (hk : e.key ≠ [])
    (h : 12 + e.key.length + e.value.length < 4294967296) :
    entry.Decode e.Encode = some e ∧ e.GetLength = e.Encode.length := by
  exact ⟨decode_encode e h, (entry.encode_length_getLength e).symm⟩

/-- Witness for C9 at the record of `TestEntry_Encode`-like shape. -/
theorem encode_decode_roundtrip_witness :
    entry.Decode (entry.Encode ⟨[114], [118]⟩) = some ⟨[114], [118]⟩ ∧
      entry.GetLength ⟨[114], [118]⟩ = (entry.Encode ⟨[114], [118]⟩).length := by
  exact encode_decode_roundtrip ⟨[114], [118]⟩ (by decide) (by decide)

/-! ## Segments and the in-memory hash index -/

/-- One segment (`Segment` in `db.go`): the contents of its append-only
file (`filePath` names it, `file` stands for the bytes on disk) and its
in-memory `hashIndex` mapping a key to the byte offset of the key's record
inside this file.  The unused Go field `outOffset` is omitted; the engine
tracks the active cursor in `Db.outOffset`. -/
structure Segment where
  filePath : String
  file : Bytes
  index : List (Bytes × Nat)
deriving DecidableEq, Repr

/-- Lookup in a `hashIndex` (Go `pos, ok := segment.index[key]`): the
binding of the key, if present.  Keys are unique in a map, so scanning the
association list is exact. -/
def indexLookup : List (Bytes × Nat) → Bytes → Option Nat
  | [], _ => none
  | p :: t, k => if p.1 = k then some p.2 else indexLookup t k

/-- Assignment to a `hashIndex` (Go `index[key] = offset`): the previous
binding of the key, if any, is dropped.  Go map iteration order is
unspecified, so any representation with these lookup semantics is a
faithful model. -/
def indexInsert (idx : List (Bytes × Nat)) (k : Bytes) (off : Nat) : List (Bytes × Nat) :=
  (k, off) :: idx.filter (fun p => decide (p.1 ≠ k))

/-- `Segment.GetFromDataSegment`: open the segment file, seek to
`position` and read just the value of the record found there (`readValue`).
`none` is any I/O failure on that path. -/
def Segment.GetFromDataSegment (s : Segment) (position : Nat) : Option Bytes :=
  readValue (s.file.drop position)

/-! ## The engine state -/

/-- `defaultFileName` in `db.go`. -/
def defaultFileName : String := "current-data"

/-- The engine (`Db` in `db.go`).  `segments` is ordered oldest to newest
and its last element is the active append target; `outOffset` is the write
cursor of the active file; `lastSegmentIndex` feeds `GenerateNewFileName`.
The channels (`putOps`, `indexOps`, `keyPositions`) serialize operations in
Go; here each operation is one atomic state transition. -/
structure Db where
  segments : List Segment
  outOffset : Nat
  segmentSize : Nat
  lastSegmentIndex : Nat
deriving DecidableEq, Repr

/-- `Db.GenerateNewFileName`: "current-data" plus the counter, which is
incremented; `filepath.Join` with the data directory is elided (all names
live in one directory). -/
def Db.generateNewFileName (db : Db) : String × Db :=
  (defaultFileName ++ toString db.lastSegmentIndex,
    { db with lastSegmentIndex := db.lastSegmentIndex + 1 })

/-- `Db.GetLastDataSegment`. -/
def Db.getLastDataSegment (db : Db) : Segment :=
  db.segments.getLastD ⟨"", [], []⟩

/-- Replace the active (last) segment; helper for the write path. -/
def Db.setActiveSegment (db : Db) (s : Segment) : Db :=
  { db with segments := db.segments.dropLast ++ [s] }

/-- `Db.CreateDataSegment`, success path: generate the next file name, open
a fresh file (empty on a fresh directory) and append the new segment; the
cursor restarts at 0.  In Go this also spawns the compaction goroutine once
`len(db.segments) >= 3`; that asynchronous run is modelled as the separate
step `Db.performOldSegmentsCompaction`. -/
def Db.createDataSegment (db : Db) : Db :=
  let path := (db.generateNewFileName).1
  let db' := (db.generateNewFileName).2
  { db' with segments := db'.segments ++ [⟨path, [], []⟩], outOffset := 0 }

/-- `Db.SetStorageKey`: bind the key to the current cursor in the active
segment's index and advance the cursor by the written size. -/
def Db.setStorageKey (db : Db) (k : Bytes) (size : Nat) : Db :=
  let active := db.getLastDataSegment
  let db' := db.setActiveSegment { active with index := indexInsert active.index k db.outOffset }
  { db' with outOffset := db.outOffset + size }

/-- Failure injection for one `Put` served by `InitiateEntryProcessor`:
which of the three fallible calls (`db.out.Stat()`, `os.OpenFile` inside
`CreateDataSegment`, `db.out.Write`) fails. -/
structure PutFaults where
  statErr : Bool
  createErr : Bool
  writeErr : Bool
deriving DecidableEq, Repr

/-- The write half of one `InitiateEntryProcessor` iteration: append the
encoded record to the active file and register the key (via `indexOps` and
`SetStorageKey`).  On a write error the index is not updated, yet the
processor still sends `nil` to the caller (`entry.result <- nil` runs
unconditionally after the write). -/
def Db.processWrite (db : Db) (faults : PutFaults) (e : entry) : Option String × Db :=
  if faults.writeErr then (none, db)
  else
    let active := db.getLastDataSegment
    let db' := db.setActiveSegment { active with file := active.file ++ e.Encode }
    (none, db'.setStorageKey e.key e.Encode.length)

/-- One iteration of `InitiateEntryProcessor` serving one `Put` request:
stat the active file, rotate if the record would overflow the bound, write
and index.  The returned `Option String` is what `Put` receives on its
result channel (`none` = success reported to the caller). -/
def Db.processEntry (db : Db) (faults : PutFaults) (e : entry) : Option String × Db :=
  if faults.statErr then (some "stat error", db)
  else if db.getLastDataSegment.file.length + e.GetLength > db.segmentSize then
    if faults.createErr then (some "create error", (db.generateNewFileName).2)
    else (db.createDataSegment).processWrite faults e
  else db.processWrite faults e

/-- `Db.Put` on the fault-free path. -/
def Db.put (db : Db) (k v : Bytes) : Db :=
  (db.processEntry ⟨false, false, false⟩ ⟨k, v⟩).2

/-- A sequence of fault-free `Put` calls. -/
def Db.puts (db : Db) (ops : List (Bytes × Bytes)) : Db :=
  ops.foldl (fun d p => d.put p.1 p.2) db

/-! ## The read path -/

/-- `Db.GetDataSegmentAndPosition`: scan segments newest to oldest, first
index hit wins. -/
def Db.getDataSegmentAndPosition (db : Db) (k : Bytes) : Option (Segment × Nat) :=
  db.segments.reverse.findSome? (fun s => (indexLookup s.index k).map (fun p => (s, p)))

/-- `Db.Get`: position lookup then a positional value read; `ErrNotFound`
when no index holds the key, an I/O error if the file read fails. -/
def Db.get (db : Db) (k : Bytes) : Except String Bytes :=
  match db.getDataSegmentAndPosition k with
  | none => Except.error "record does not exist"
  | some (s, p) =>
    match s.GetFromDataSegment p with
    | some v => Except.ok v
    | none => Except.error "i/o failure"

/-! ## Compaction -/

/-- `IsKeyInNewerSegments` from `db.go`. -/
def IsKeyInNewerSegments (segments : List Segment) (key : Bytes) : Bool :=
  segments.any (fun s => (indexLookup s.index key).isSome)

/-- Accumulator of the compaction merge loop: the output file bytes, the
output segment's index, the Go local `offset`, and a counter numbering the
`newFile.Write` calls (consumed by the failure injection `writeOk`). -/
structure MergeAcc where
  file : Bytes
  index : List (Bytes × Nat)
  offset : Nat
  wctr : Nat
deriving DecidableEq, Repr

/-- The body of the inner compaction loop, for one `(key, pos)` pair of
`currentSegment.index`: skip the key if a strictly newer mergeable segment
(`newer`, the Go slice `db.segments[i+1 : lastSegmentIdx+1]`) also indexes
it; otherwise read the value (a failed read leaves the Go zero value, the
empty string) and append the re-encoded record to the output file.  When
the write errors (`writeOk` is false for this write) the index entry and
offset advance are skipped and the loop continues. -/
def mergeEntry (writeOk : Nat → Bool) (currentSegment : Segment) (newer : List Segment)
    (acc : MergeAcc) (kp : Bytes × Nat) : MergeAcc :=
  if IsKeyInNewerSegments newer kp.1 then acc
  else
    let value := (currentSegment.GetFromDataSegment kp.2).getD []
    let e : entry := ⟨kp.1, value⟩
    if writeOk acc.wctr then
      ⟨acc.file ++ e.Encode, indexInsert acc.index kp.1 acc.offset,
        acc.offset + e.Encode.length, acc.wctr + 1⟩
    else ⟨acc.file, acc.index, acc.offset, acc.wctr + 1⟩

/-- The outer compaction loop over the mergeable segments, oldest first
(the Go loop `for i := 0; i <= lastSegmentIdx; i++`); at each step `rest`
is exactly the slice of strictly newer mergeable segments. -/
def mergeSegments (writeOk : Nat → Bool) : List Segment → MergeAcc → MergeAcc
  | [], acc => acc
  | s :: rest, acc => mergeSegments writeOk rest (s.index.foldl (mergeEntry writeOk s rest) acc)

/-- `Db.PerformOldSegmentsCompaction` as one atomic step (in Go it is a
goroutine).  `createOk` injects the `os.OpenFile` outcome for the output
file: on failure the goroutine returns before touching `db.segments`.
Otherwise the mergeable segments (all but the last) are merged and the
segment list is replaced by `[newSegment, activeSegment]`. -/
def Db.performOldSegmentsCompaction (db : Db) (createOk : Bool) (writeOk : Nat → Bool) : Db :=
  let newFilePath := (db.generateNewFileName).1
  let db' := (db.generateNewFileName).2
  if !createOk then db'
  else
    let acc := mergeSegments writeOk db'.segments.dropLast ⟨[], [], 0, 0⟩
    { db' with segments := [⟨newFilePath, acc.file, acc.index⟩, db'.getLastDataSegment] }

/-! ## Recovery and engine construction -/

/-- `bufferSize` in `db.go`. -/
def bufferSize : Nat := 8192

/-- One run of the `Db.Recover` loop over the remaining bytes of the active
file, with the index and cursor built so far.  `Peek` on a `bufio.Reader`
buffers `min(remaining, bufferSize)` bytes; an empty peek at end of stream
returns `io.EOF`, which terminates replay successfully (modelled as
`Except.ok`).  Fewer than four remaining bytes crash
`binary.LittleEndian.Uint32` (startup does not succeed), a short read of a
claimed record length returns the fatal `"corrupted file"` error, and a
malformed record is a decode failure.  The fuel argument bounds the
recursion; `recover` supplies one unit per input byte plus one, enough for
every run the Go loop completes (each iteration consumes `size ≥ 12`
bytes). -/
def recoverAux : Nat → Bytes → List (Bytes × Nat) → Nat → Except String (List (Bytes × Nat) × Nat)
  | 0, _, _, _ => Except.error "out of fuel"
  | fuel + 1, bytes, idx, off =>
    if bytes = [] then Except.ok (idx, off)
    else if bytes.length < 4 then Except.error "header out of range"
    else
      let size := readLe32 bytes
      let buffered := min bytes.length bufferSize
      let readBytes := min size buffered
      if readBytes ≠ size then Except.error "corrupted file"
      else
        match entry.Decode (bytes.take size) with
        | none => Except.error "decode failure"
        | some e => recoverAux fuel (bytes.drop size) (indexInsert idx e.key off) (off + size)

/-- `Db.Recover` run over the bytes of the active file. -/
def recover (bytes : Bytes) : Except String (List (Bytes × Nat) × Nat) :=
  recoverAux (bytes.length + 1) bytes [] 0

/-- `NewDatabase`: create the first data segment — named with counter 0,
which restarts at 0 on every process start, so on a restart the file
`current-data0` of the prior run is reopened in append mode and
`existingFileBytes` are its surviving bytes (empty for a fresh directory) —
then replay it; any recovery outcome other than clean end of stream aborts
construction. -/
def newDatabase (segmentSize : Nat) (existingFileBytes : Bytes) : Except String Db :=
  match recover existingFileBytes with
  | Except.error e => Except.error e
  | Except.ok (idx, off) =>
    Except.ok
      { segments := [⟨defaultFileName ++ toString 0, existingFileBytes, idx⟩],
        outOffset := off, segmentSize := segmentSize, lastSegmentIndex := 1 }

/-! ## Index and value-read lemmas -/

lemma indexLookup_insert_self (idx : List (Bytes × Nat)) (k : Bytes) (off : Nat) :
    indexLookup (indexInsert idx k off) k = some off := by
  simp [indexLookup, indexInsert]

lemma indexLookup_filter_ne (idx : List (Bytes × Nat)) (k k' : Bytes) (h : k ≠ k') :
    indexLookup (idx.filter (fun p => decide (p.1 ≠ k'))) k = indexLookup idx k := by
  induction idx with
  | nil => rfl
  | cons p t ih =>
    by_cases hp' : p.1 = k'
    · have hdrop : (decide (p.1 ≠ k')) = false := by simp [hp']
      have hnk : ¬ p.1 = k := by rw [hp']; exact fun hc => h hc.symm
      rw [List.filter_cons, hdrop]
      simp only [Bool.false_eq_true, if_false]
      rw [ih, indexLookup, if_neg hnk]
    · have hkeep : (decide (p.1 ≠ k')) = true := by simp [hp']
      rw [List.filter_cons, hkeep]
      simp only [if_true]
      by_cases hp : p.1 = k
      · rw [indexLookup, if_pos hp, indexLookup, if_pos hp]
      · rw [indexLookup, if_neg hp, indexLookup, if_neg hp, ih]

lemma indexLookup_insert_other (idx : List (Bytes × Nat)) (k k' : Bytes) (off : Nat)
    (h : k ≠ k') : indexLookup (indexInsert idx k' off) k = indexLookup idx k := by
  rw [indexInsert, indexLookup, if_neg (fun hc => h hc.symm), indexLookup_filter_ne idx k k' h]

lemma indexLookup_isSome_of_mem (idx : List (Bytes × Nat)) (k : Bytes) (pos : Nat)
    (h : (k, pos) ∈ idx) : (indexLookup idx k).isSome = true := by
  induction idx with
  | nil => cases h
  | cons p t ih =>
    by_cases hp : p.1 = k
    · rw [indexLookup, if_pos hp]; rfl
    · rw [indexLookup, if_neg hp]
      rcases List.mem_cons.mp h with heq | hmem
      · rw [← heq] at hp; exact absurd rfl hp
      · exact ih hmem

lemma indexLookup_mem (idx : List (Bytes × Nat)) (k : Bytes) (pos : Nat)
    (h : indexLookup idx k = some pos) : (k, pos) ∈ idx := by
  induction idx with
  | nil => cases h
  | cons p t ih =>
    by_cases hp : p.1 = k
    · rw [indexLookup, if_pos hp] at h
      have hp2 : p.2 = pos := by injection h
      have hpk : p = (k, pos) := by
        cases p
        simp only at hp hp2
        rw [hp, hp2]
      rw [hpk]
      exact List.mem_cons_self _ _
    · rw [indexLookup, if_neg hp] at h
      exact List.mem_cons_of_mem _ (ih h)

lemma drop_append_le (b ext : Bytes) (n : Nat) (h : n ≤ b.length) :
    (b ++ ext).drop n = b.drop n ++ ext := by
  rw [List.drop_append_eq_append_drop, Nat.sub_eq_zero_of_le h, List.drop_zero]

lemma readLe32_append_of_le (x ext : Bytes) (h : 4 ≤ x.length) :
    readLe32 (x ++ ext) = readLe32 x := by
  unfold readLe32
  rw [List.getD_append _ _ _ _ (by omega), List.getD_append _ _ _ _ (by omega),
    List.getD_append _ _ _ _ (by omega), List.getD_append _ _ _ _ (by omega)]

lemma readValue_bounds (b v : Bytes) (h : readValue b = some v) : 8 ≤ b.length := by
  unfold readValue at h
  by_cases h8 : 8 ≤ b.length
  · exact h8
  · rw [if_neg h8] at h; cases h

/-- A successful positional value read is unaffected by later appends to
the same file. -/
lemma readValue_append (b ext v : Bytes) (h : readValue b = some v) :
    readValue (b ++ ext) = some v := by
  unfold readValue at h
  by_cases h8 : 8 ≤ b.length
  · rw [if_pos h8] at h
    by_cases hkl : 12 + readLe32 (b.drop 4) ≤ b.length
    · rw [if_pos hkl] at h
      by_cases hvl : 12 + readLe32 (b.drop 4) +
          readLe32 (b.drop (8 + readLe32 (b.drop 4))) ≤ b.length
      · rw [if_pos hvl] at h
        have hd4 : (b ++ ext).drop 4 = b.drop 4 ++ ext := drop_append_le b ext 4 (by omega)
        have hkl4 : readLe32 ((b ++ ext).drop 4) = readLe32 (b.drop 4) := by
          rw [hd4, readLe32_append_of_le]
          simp only [List.length_drop]; omega
        have hd8 : (b ++ ext).drop (8 + readLe32 (b.drop 4)) =
            b.drop (8 + readLe32 (b.drop 4)) ++ ext :=
          drop_append_le b ext _ (by omega)
        have hvl8 : readLe32 ((b ++ ext).drop (8 + readLe32 (b.drop 4))) =
            readLe32 (b.drop (8 + readLe32 (b.drop 4))) := by
          rw [hd8, readLe32_append_of_le]
          simp only [List.length_drop]; omega
        have hd12 : (b ++ ext).drop (12 + readLe32 (b.drop 4)) =
            b.drop (12 + readLe32 (b.drop 4)) ++ ext :=
          drop_append_le b ext _ (by omega)
        unfold readValue
        rw [if_pos (by simp only [List.length_append]; omega), hkl4,
          if_pos (by simp only [List.length_append]; omega), hvl8,
          if_pos (by simp only [List.length_append]; omega), hd12,
          List.take_append_of_le_length (by simp only [List.length_drop]; omega)]
        rw [← h]
      · rw [if_neg hvl] at h; cases h
    · rw [if_neg hkl] at h; cases h
  · rw [if_neg h8] at h; cases h

/-! ## Shape lemmas for the segment list -/

lemma concat_shape {α : Type} (l : List α) (h : l ≠ []) : ∃ t x, l = t ++ [x] := by
  induction l with
  | nil => cases h rfl
  | cons a t ih =>
    cases t with
    | nil => exact ⟨[], a, rfl⟩
    | cons b u =>
      obtain ⟨t', x, hx⟩ := ih (by simp)
      exact ⟨a :: t', x, by simp [hx]⟩

lemma getLastD_concat {α : Type} (l : List α) (x d : α) : (l ++ [x]).getLastD d = x := by
  rw [List.getLastD_eq_getLast?, List.getLast?_concat]
  rfl

/-! ## Well-formedness of the engine state and the write path -/

/-- The structural invariant of a running engine: the segment list is
non-empty and the cursor equals the size of the active file (established
at `NewDatabase` and maintained by every `Put`). -/
def Db.Wf (db : Db) : Prop :=
  db.segments ≠ [] ∧ db.outOffset = db.getLastDataSegment.file.length

instance (db : Db) : Decidable db.Wf := by
  unfold Db.Wf; infer_instance

/-- Effect of a fault-free `Put` that fits in the active file. -/
lemma put_noRotate (t : List Segment) (a : Segment) (ss li : Nat) (k v : Bytes)
    (hsz : ¬ a.file.length + (entry.GetLength ⟨k, v⟩) > ss) :
    Db.put ⟨t ++ [a], a.file.length, ss, li⟩ k v =
      ⟨t ++ [⟨a.filePath, a.file ++ entry.Encode ⟨k, v⟩,
          indexInsert a.index k a.file.length⟩],
        a.file.length + (entry.Encode ⟨k, v⟩).length, ss, li⟩ := by
  unfold Db.put Db.processEntry Db.processWrite Db.setStorageKey Db.setActiveSegment
    Db.getLastDataSegment
  simp only [getLastD_concat, if_neg hsz, Bool.false_eq_true, if_false,
    List.dropLast_concat]

/-- Effect of a fault-free `Put` that rotates to a fresh segment first. -/
lemma put_rotate (t : List Segment) (a : Segment) (oo ss li : Nat) (k v : Bytes)
    (hsz : a.file.length + (entry.GetLength ⟨k, v⟩) > ss) :
    Db.put ⟨t ++ [a], oo, ss, li⟩ k v =
      ⟨(t ++ [a]) ++ [⟨defaultFileName ++ toString li, entry.Encode ⟨k, v⟩,
          [(k, 0)]⟩],
        (entry.Encode ⟨k, v⟩).length, ss, li + 1⟩ := by
  unfold Db.put Db.processEntry Db.processWrite Db.setStorageKey Db.setActiveSegment
    Db.getLastDataSegment Db.createDataSegment Db.generateNewFileName
  simp only [getLastD_concat, if_pos hsz, Bool.false_eq_true, if_false]
  simp [getLastD_concat, List.dropLast_concat, indexInsert]

/-- `Put` preserves the engine invariant. -/
lemma wf_put (db : Db) (hwf : db.Wf) (k v : Bytes) : (db.put k v).Wf := by
  obtain ⟨t, a, hseg⟩ := concat_shape db.segments hwf.1
  have hoo : db.outOffset = a.file.length := by
    have := hwf.2
    rw [Db.getLastDataSegment, hseg, getLastD_concat] at this
    exact this
  have hdb : db = ⟨t ++ [a], a.file.length, db.segmentSize, db.lastSegmentIndex⟩ := by
    cases db; simp_all
  by_cases hsz : a.file.length + (entry.GetLength ⟨k, v⟩) > db.segmentSize
  · rw [hdb, put_rotate t a _ _ _ k v hsz]
    constructor
    · simp
    · rw [Db.getLastDataSegment, getLastD_concat]
  · rw [hdb, put_noRotate t a _ _ k v hsz]
    constructor
    · simp
    · rw [Db.getLastDataSegment, getLastD_concat]
      simp

/-- After a fault-free `Put(k, v)` the very next `Get(k)` returns `v`. -/
lemma get_after_put (db : Db) (hwf : db.Wf) (k v : Bytes)
    (hsmall : 12 + k.length + v.length < 4294967296) :
    (db.put k v).get k = Except.ok v := by
  obtain ⟨t, a, hseg⟩ := concat_shape db.segments hwf.1
  have hoo : db.outOffset = a.file.length := by
    have := hwf.2
    rw [Db.getLastDataSegment, hseg, getLastD_concat] at this
    exact this
  have hdb : db = ⟨t ++ [a], a.file.length, db.segmentSize, db.lastSegmentIndex⟩ := by
    cases db; simp_all
  have hrv : readValue (entry.Encode ⟨k, v⟩) = some v := by
    have := readValue_encode ⟨k, v⟩ [] (by simpa using hsmall)
    simpa using this
  by_cases hsz : a.file.length + (entry.GetLength ⟨k, v⟩) > db.segmentSize
  · rw [hdb, put_rotate t a _ _ _ k v hsz]
    unfold Db.get Db.getDataSegmentAndPosition
    rw [List.reverse_append]
    simp only [List.reverse_singleton, List.singleton_append, List.findSome?_cons]
    have hlk : indexLookup [(k, 0)] k = some 0 := by
      have := indexLookup_insert_self [] k 0
      simpa [indexInsert] using this
    rw [hlk]
    simp only [Option.map_some']
    rw [Segment.GetFromDataSegment]
    simp only [List.drop_zero]
    rw [hrv]
  · rw [hdb, put_noRotate t a _ _ k v hsz]
    unfold Db.get Db.getDataSegmentAndPosition
    rw [List.reverse_append]
    simp only [List.reverse_singleton, List.singleton_append, List.findSome?_cons]
    rw [indexLookup_insert_self]
    simp only [Option.map_some']
    rw [Segment.GetFromDataSegment]
    have hdrop : (a.file ++ entry.Encode ⟨k, v⟩).drop a.file.length = entry.Encode ⟨k, v⟩ :=
      List.drop_left a.file _
    rw [hdrop, hrv]

/-- A fault-free `Put` of a different key preserves the result of `Get(k)`. -/
lemma get_preserved_put (db : Db) (hwf : db.Wf) (k v k' v' : Bytes) (hne : k' ≠ k)
    (hget : db.get k = Except.ok v) : (db.put k' v').get k = Except.ok v := by
  obtain ⟨t, a, hseg⟩ := concat_shape db.segments hwf.1
  have hoo : db.outOffset = a.file.length := by
    have := hwf.2
    rw [Db.getLastDataSegment, hseg, getLastD_concat] at this
    exact this
  have hdb : db = ⟨t ++ [a], a.file.length, db.segmentSize, db.lastSegmentIndex⟩ := by
    cases db; simp_all
  rw [hdb] at hget
  unfold Db.get Db.getDataSegmentAndPosition at hget
  rw [List.reverse_append] at hget
  simp only [List.reverse_singleton, List.singleton_append, List.findSome?_cons] at hget
  by_cases hsz : a.file.length + (entry.GetLength ⟨k', v'⟩) > db.segmentSize
  · rw [hdb, put_rotate t a _ _ _ k' v' hsz]
    unfold Db.get Db.getDataSegmentAndPosition
    rw [List.reverse_append]
    simp only [List.reverse_singleton, List.singleton_append, List.findSome?_cons]
    have hlk : indexLookup [(k', 0)] k = none := by
      simp [indexLookup, hne]
    rw [hlk]
    simp only [Option.map_none']
    rw [List.reverse_append]
    simp only [List.reverse_singleton, List.singleton_append, List.findSome?_cons]
    exact hget
  · rw [hdb, put_noRotate t a _ _ k' v' hsz]
    unfold Db.get Db.getDataSegmentAndPosition
    rw [List.reverse_append]
    simp only [List.reverse_singleton, List.singleton_append, List.findSome?_cons]
    rw [indexLookup_insert_other _ _ _ _ (Ne.symm hne)]
    cases hlk : indexLookup a.index k with
    | none =>
      rw [hlk] at hget
      simpa using hget
    | some p =>
      rw [hlk] at hget
      simp only [Option.map_some'] at hget ⊢
      rw [Segment.GetFromDataSegment] at hget ⊢
      cases hrd : readValue (a.file.drop p) with
      | none => rw [hrd] at hget; cases hget
      | some w =>
        rw [hrd] at hget
        have hp : p ≤ a.file.length := by
          have h8 := readValue_bounds _ _ hrd
          simp only [List.length_drop] at h8
          omega
        rw [drop_append_le _ _ _ hp, readValue_append _ _ _ hrd]
        exact hget

lemma get_preserved_puts (k v : Bytes) (ops : List (Bytes × Bytes)) :
    ∀ db : Db, db.Wf → db.get k = Except.ok v → (∀ p ∈ ops, p.1 ≠ k) →
      (db.puts ops).get k = Except.ok v := by
  induction ops with
  | nil => intro db _ hget _; exact hget
  | cons op rest ih =>
    intro db hwf hget hops
    have hstep := ih (db.put op.1 op.2) (wf_put db hwf op.1 op.2)
      (get_preserved_put db hwf k v op.1 op.2 (hops op (List.mem_cons_self _ _)) hget)
      (fun p hp => hops p (List.mem_cons_of_mem _ hp))
    simpa [Db.puts] using hstep

/-- Claim C4: a fault-free `Put(k, v)` on a well-formed engine, followed by
any fault-free `Put`s of other keys, leaves `Get(k)` returning exactly `v`:
the read path scans newest to oldest and the freshest binding of `k` wins. -/
theorem put_then_get_returns_value (db : Db) (hwf : db.Wf) (k v : Bytes)
    (hsmall : 12 + k.length + v.length < 4294967296)
    (ops : List (Bytes × Bytes)) (hops : ∀ p ∈ ops, p.1 ≠ k) :
    ((db.put k v).puts ops).get k = Except.ok v :=
  get_preserved_puts k v ops (db.put k v) (wf_put db hwf k v)
    (get_after_put db hwf k v hsmall) hops

/-- A freshly opened engine over an empty directory (`NewDatabase` with
bound 45, as in `TestDb_Put`). -/
def dbFresh : Db := ⟨[⟨"current-data0", [], []⟩], 0, 45, 1⟩

/-- Witness for C4 on the fresh engine. -/
theorem put_then_get_returns_value_witness :
    Db.Wf dbFresh ∧ ((dbFresh.put [49] [118]).puts [([50], [119])]).get [49] = Except.ok [118] :=
  ⟨by decide, put_then_get_returns_value dbFresh (by decide) [49] [118] (by decide)
    [([50], [119])] (by decide)⟩

/-- Claim C3 counterexample: with a failing `db.out.Write` (and the stat
and rotation calls fine), the entry processor still sends `nil` to the
caller of `Put` — the write error is not returned. -/
theorem put_swallows_write_error :
    (dbFresh.processEntry ⟨false, false, true⟩ ⟨[49], [118]⟩).1 = none := by
  decide

/-- Claim C3 amended: a `Put` call returns an error exactly when the stat
of the active file fails or a needed rotation fails to create the new
segment file; a failed append itself is swallowed and `Put` reports
success. -/
theorem put_error_reporting (db : Db) (faults : PutFaults) (e : entry) :
    (db.processEntry faults e).1 =
      (if faults.statErr then some "stat error"
       else if db.getLastDataSegment.file.length + e.GetLength > db.segmentSize ∧
           faults.createErr = true then some "create error"
       else none) := by
  rcases faults with ⟨st, cr, wr⟩
  by_cases hsz : db.getLastDataSegment.file.length + e.GetLength > db.segmentSize
  all_goals cases st
  all_goals cases cr
  all_goals cases wr
  all_goals simp [Db.processEntry, Db.processWrite, hsz]

/-- Segments used by the concrete compaction scenarios: two sealed
segments both holding key `"2"` (byte 50) with different values, plus an
empty active segment. -/
def segOldA : Segment := ⟨"current-data0", entry.Encode ⟨[50], [97]⟩, [([50], 0)]⟩

def segOldB : Segment := ⟨"current-data1", entry.Encode ⟨[50], [98]⟩, [([50], 0)]⟩

def segActive : Segment := ⟨"current-data2", [], []⟩

def dbThree : Db := ⟨[segOldA, segOldB, segActive], 0, 100, 3⟩

/-- Claim C2 counterexample: when every write to the compaction output
file fails, the goroutine still replaces the segment list with the
(empty) partial output — the pre-compaction list is not preserved. -/
theorem compaction_write_failure_installs_partial_output :
    (dbThree.performOldSegmentsCompaction true (fun _ => false)).segments ≠
      dbThree.segments := by
  decide

/-- Claim C2 amended: only a failure to create the output file aborts a
compaction run without touching the segment list; failed writes merely
skip their record, and the output (possibly missing records) is installed
regardless, as a two-element list. -/
theorem compaction_abort_only_on_create_failure (db : Db) (writeOk : Nat → Bool) :
    (db.performOldSegmentsCompaction false writeOk).segments = db.segments ∧
      (db.performOldSegmentsCompaction true writeOk).segments.length = 2 := by
  constructor
  · simp [Db.performOldSegmentsCompaction, Db.generateNewFileName]
  · simp [Db.performOldSegmentsCompaction, Db.generateNewFileName]

/-! ## Segment size bound (C6) -/

/-- Every segment file (sealed or active) fits in the configured bound. -/
def SizeInv (db : Db) : Prop :=
  ∀ s ∈ db.segments, s.file.length ≤ db.segmentSize

instance (db : Db) : Decidable (SizeInv db) := by
  unfold SizeInv; infer_instance

lemma sizeInv_put (db : Db) (hwf : db.Wf) (hinv : SizeInv db) (k v : Bytes)
    (hlen : 12 + k.length + v.length ≤ db.segmentSize) :
    SizeInv (db.put k v) ∧ (db.put k v).segmentSize = db.segmentSize ∧ (db.put k v).Wf := by
  obtain ⟨t, a, hseg⟩ := concat_shape db.segments hwf.1
  have hoo : db.outOffset = a.file.length := by
    have := hwf.2
    rw [Db.getLastDataSegment, hseg, getLastD_concat] at this
    exact this
  have hdb : db = ⟨t ++ [a], a.file.length, db.segmentSize, db.lastSegmentIndex⟩ := by
    cases db; simp_all
  have henc : (entry.Encode ⟨k, v⟩).length = 12 + k.length + v.length :=
    entry.encode_length ⟨k, v⟩
  refine ⟨?_, ?_, wf_put db hwf k v⟩
  · intro s hs
    by_cases hsz : a.file.length + (entry.GetLength ⟨k, v⟩) > db.segmentSize
    · rw [hdb, put_rotate t a _ _ _ k v hsz] at hs ⊢
      simp only at hs ⊢
      rcases List.mem_append.mp hs with hold | hnew
      · have : s ∈ db.segments := by rw [hseg]; exact hold
        exact hinv s this
      · have : s = ⟨defaultFileName ++ toString db.lastSegmentIndex,
            entry.Encode ⟨k, v⟩, [(k, 0)]⟩ := by simpa using hnew
        rw [this]
        simpa [henc] using hlen
    · rw [hdb, put_noRotate t a _ _ k v hsz] at hs ⊢
      simp only at hs ⊢
      rcases List.mem_append.mp hs with hold | hnew
      · have : s ∈ db.segments := by
          rw [hseg]
          exact List.mem_append.mpr (Or.inl hold)
        exact hinv s this
      · have hs' : s = ⟨a.filePath, a.file ++ entry.Encode ⟨k, v⟩,
            indexInsert a.index k a.file.length⟩ := by simpa using hnew
        rw [hs']
        simp only [List.length_append, henc]
        simp only [gt_iff_lt, not_lt, entry.GetLength] at hsz
        omega
  · by_cases hsz : a.file.length + (entry.GetLength ⟨k, v⟩) > db.segmentSize
    · rw [hdb, put_rotate t a _ _ _ k v hsz]
    · rw [hdb, put_noRotate t a _ _ k v hsz]

lemma sizeInv_puts (ops : List (Bytes × Bytes)) :
    ∀ db : Db, db.Wf → SizeInv db →
      (∀ p ∈ ops, 12 + p.1.length + p.2.length ≤ db.segmentSize) →
      SizeInv (db.puts ops) ∧ (db.puts ops).segmentSize = db.segmentSize := by
  induction ops with
  | nil => intro db _ hinv _; exact ⟨hinv, rfl⟩
  | cons op rest ih =>
    intro db hwf hinv hops
    obtain ⟨hinv', hss', hwf'⟩ := sizeInv_put db hwf hinv op.1 op.2
      (hops op (List.mem_cons_self _ _))
    have hstep := ih (db.put op.1 op.2) hwf' hinv'
      (fun p hp => by rw [hss']; exact hops p (List.mem_cons_of_mem _ hp))
    refine ⟨?_, ?_⟩
    · simpa [Db.puts] using hstep.1
    · have := hstep.2
      rw [hss'] at this
      simpa [Db.puts] using this

/-- Claim C6 amended: provided every record's encoded length fits in
`segmentSizeBound`, no segment file — in particular no sealed one — ever
exceeds the bound under any sequence of fault-free `Put`s.  (A single
record longer than the bound is nevertheless written, alone, into a fresh
segment that exceeds the bound; see the counterexample.) -/
theorem sealed_segments_bounded (db : Db) (hwf : db.Wf) (hinv : SizeInv db)
    (ops : List (Bytes × Bytes))
    (hops : ∀ p ∈ ops, 12 + p.1.length + p.2.length ≤ db.segmentSize) :
    ∀ s ∈ (db.puts ops).segments.dropLast, s.file.length ≤ db.segmentSize := by
  obtain ⟨hinv', hss'⟩ := sizeInv_puts ops db hwf hinv hops
  intro s hs
  have hmem : s ∈ (db.puts ops).segments := (List.dropLast_sublist _).subset hs
  have := hinv' s hmem
  rwa [hss'] at this

/-- Witness for the amended C6 on the fresh engine. -/
theorem sealed_segments_bounded_witness :
    Db.Wf dbFresh ∧ SizeInv dbFresh ∧
      ((dbFresh.puts [([49], [118])]).segments.dropLast.all
        (fun s => decide (s.file.length ≤ 45))) = true := by
  refine ⟨by decide, by decide, ?_⟩
  have h := sealed_segments_bounded dbFresh (by decide) (by decide) [([49], [118])] (by decide)
  rw [List.all_eq_true]
  intro s hs
  simp only [decide_eq_true_eq]
  exact h s hs

/-- A 41-byte value whose record encodes to 54 bytes, past the bound 45. -/
def bigValue : Bytes := List.replicate 41 118

/-- Claim C6 counterexample: an oversized record is written whole into a
fresh segment; once the next `Put` rotates again, that sealed segment's
file (54 bytes) exceeds the bound 45. -/
theorem oversized_record_breaks_segment_bound :
    ((dbFresh.put [107] bigValue).put [97] [98]).segments.dropLast.any
      (fun s => decide (45 < s.file.length)) = true := by
  decide

/-! ## Compaction structure (C7) -/

lemma foldl_mergeEntry_keys (writeOk : Nat → Bool) (s : Segment) (rest : List Segment)
    (l : List (Bytes × Nat)) (k : Bytes) :
    ∀ acc : MergeAcc,
      (indexLookup (l.foldl (mergeEntry writeOk s rest) acc).index k).isSome = true →
      (indexLookup acc.index k).isSome = true ∨ ∃ pos, (k, pos) ∈ l := by
  induction l with
  | nil => intro acc h; exact Or.inl h
  | cons kp t ih =>
    intro acc h
    rw [List.foldl_cons] at h
    rcases ih (mergeEntry writeOk s rest acc kp) h with hacc | ⟨pos, hpos⟩
    · unfold mergeEntry at hacc
      by_cases hskip : IsKeyInNewerSegments rest kp.1 = true
      · rw [if_pos hskip] at hacc
        exact Or.inl hacc
      · rw [if_neg hskip] at hacc
        by_cases hw : writeOk acc.wctr = true
        · rw [if_pos hw] at hacc
          simp only at hacc
          by_cases hk : kp.1 = k
          · refine Or.inr ⟨kp.2, ?_⟩
            have : kp = (k, kp.2) := by
              cases kp; simp only at hk ⊢; rw [hk]
            rw [← this]
            exact List.mem_cons_self _ _
          · rw [indexLookup_insert_other _ _ _ _ (fun hc => hk hc.symm)] at hacc
            exact Or.inl hacc
        · rw [if_neg hw] at hacc
          exact Or.inl hacc
    · exact Or.inr ⟨pos, List.mem_cons_of_mem _ hpos⟩

lemma mergeSegments_keys (writeOk : Nat → Bool) (segs : List Segment) (k : Bytes) :
    ∀ acc : MergeAcc,
      (indexLookup (mergeSegments writeOk segs acc).index k).isSome = true →
      (indexLookup acc.index k).isSome = true ∨ IsKeyInNewerSegments segs k = true := by
  induction segs with
  | nil => intro acc h; exact Or.inl h
  | cons s rest ih =>
    intro acc h
    rw [mergeSegments] at h
    rcases ih _ h with hacc | hrest
    · rcases foldl_mergeEntry_keys writeOk s rest s.index k acc hacc with h1 | ⟨pos, hpos⟩
      · exact Or.inl h1
      · refine Or.inr ?_
        rw [IsKeyInNewerSegments, List.any_cons]
        rw [indexLookup_isSome_of_mem s.index k pos hpos]
        rfl
    · refine Or.inr ?_
      rw [IsKeyInNewerSegments, List.any_cons]
      rw [IsKeyInNewerSegments] at hrest
      rw [hrest, Bool.or_true]

/-- Claim C7: a compaction pass whose output file was created installs
exactly the two-element list `[mergedSegment, activeSegment]`; the merged
segment is a function of the mergeable prefix only (`dropLast`), and every
key it indexes comes from a mergeable segment — the active segment never
feeds the merge. -/
theorem compaction_installs_two_segments (db : Db) (writeOk : Nat → Bool) :
    (db.performOldSegmentsCompaction true writeOk).segments =
      [⟨defaultFileName ++ toString db.lastSegmentIndex,
          (mergeSegments writeOk db.segments.dropLast ⟨[], [], 0, 0⟩).file,
          (mergeSegments writeOk db.segments.dropLast ⟨[], [], 0, 0⟩).index⟩,
        db.getLastDataSegment] ∧
      ∀ k, (indexLookup (mergeSegments writeOk db.segments.dropLast ⟨[], [], 0, 0⟩).index
          k).isSome = true →
        IsKeyInNewerSegments db.segments.dropLast k = true := by
  constructor
  · simp [Db.performOldSegmentsCompaction, Db.generateNewFileName, Db.getLastDataSegment]
  · intro k h
    rcases mergeSegments_keys writeOk db.segments.dropLast k ⟨[], [], 0, 0⟩ h with hacc | hm
    · cases hacc
    · exact hm

/-! ## File naming across restarts (C8) -/

/-- Claim C8: the starting counter is not derived from the directory.
Whatever bytes a prior run left in `current-data0` (and whatever other
segment files exist), a successfully constructed engine always starts with
`lastSegmentIndex = 1` having named its first — and only — segment file
`current-data` + `0`, colliding with the first file of any prior run. -/
theorem restart_reuses_first_file_name (sz : Nat) (contents : Bytes) (db : Db)
    (h : newDatabase sz contents = Except.ok db) :
    db.lastSegmentIndex = 1 ∧
      db.segments.map Segment.filePath = [defaultFileName ++ toString 0] := by
  unfold newDatabase at h
  cases hrec : recover contents with
  | error e => rw [hrec] at h; cases h
  | ok res =>
    rw [hrec] at h
    obtain ⟨idx, off⟩ := res
    simp only at h
    injection h with h'
    rw [← h']
    exact ⟨rfl, rfl⟩

/-- Witness for C8: construction over an empty prior file. -/
theorem restart_reuses_first_file_name_witness :
    newDatabase 45 [] =
        Except.ok (⟨[⟨defaultFileName ++ toString 0, [], []⟩], 0, 45, 1⟩ : Db) ∧
      (⟨[⟨defaultFileName ++ toString 0, [], []⟩], 0, 45, 1⟩ : Db).lastSegmentIndex = 1 ∧
      (⟨[⟨defaultFileName ++ toString 0, [], []⟩], 0, 45, 1⟩ : Db).segments.map
          Segment.filePath = [defaultFileName ++ toString 0] :=
  ⟨by rfl, restart_reuses_first_file_name 45 [] _ (by rfl)⟩

/-! ## Compaction merge correctness (C1, C10) -/

/-- All writes to the compaction output succeed. -/
def allOk : Nat → Bool := fun _ => true

/-- The newest mergeable segment whose index holds the key. -/
def newestHolder (segs : List Segment) (k : Bytes) : Option Segment :=
  segs.reverse.find? (fun s => (indexLookup s.index k).isSome)

/-- The value the newest holder's file yields for the key (the value the
spec says compaction must retain); `none` if no holder or a failed read. -/
def newestValue (segs : List Segment) (k : Bytes) : Option Bytes :=
  (newestHolder segs k).bind
    (fun s => (indexLookup s.index k).bind (fun pos => s.GetFromDataSegment pos))

/-- The byte string compaction actually re-encodes for the key: the newest
holder's value, or the empty string when the read fails (`value, _ := ...`
leaves the Go zero value). -/
def mergeValue (segs : List Segment) (k : Bytes) : Bytes :=
  (newestValue segs k).getD []

lemma mergeEntry_wf (writeOk : Nat → Bool) (s : Segment) (rest : List Segment)
    (acc : MergeAcc) (kp : Bytes × Nat) (h : acc.offset = acc.file.length) :
    (mergeEntry writeOk s rest acc kp).offset =
      (mergeEntry writeOk s rest acc kp).file.length := by
  unfold mergeEntry
  split_ifs with h1 h2
  · exact h
  · simp [h]
  · exact h

lemma foldl_mergeEntry_wf (writeOk : Nat → Bool) (s : Segment) (rest : List Segment)
    (l : List (Bytes × Nat)) :
    ∀ acc : MergeAcc, acc.offset = acc.file.length →
      (l.foldl (mergeEntry writeOk s rest) acc).offset =
        (l.foldl (mergeEntry writeOk s rest) acc).file.length := by
  induction l with
  | nil => intro acc h; exact h
  | cons kp t ih =>
    intro acc h
    rw [List.foldl_cons]
    exact ih _ (mergeEntry_wf writeOk s rest acc kp h)

lemma foldl_mergeEntry_frame (writeOk : Nat → Bool) (s : Segment) (rest : List Segment)
    (k : Bytes) (l : List (Bytes × Nat)) :
    ∀ acc : MergeAcc, (∀ kp ∈ l, kp.1 ≠ k ∨ IsKeyInNewerSegments rest kp.1 = true) →
      indexLookup (l.foldl (mergeEntry writeOk s rest) acc).index k =
        indexLookup acc.index k := by
  induction l with
  | nil => intro acc _; rfl
  | cons kp t ih =>
    intro acc hl
    rw [List.foldl_cons, ih _ (fun p hp => hl p (List.mem_cons_of_mem _ hp))]
    unfold mergeEntry
    split_ifs with h1 h2
    · rfl
    · simp only
      rcases hl kp (List.mem_cons_self _ _) with hne | hskip
      · exact indexLookup_insert_other _ _ _ _ (fun hc => hne hc.symm)
      · exact absurd hskip h1
    · rfl

lemma mergeEntry_ext (writeOk : Nat → Bool) (s : Segment) (rest : List Segment)
    (acc : MergeAcc) (kp : Bytes × Nat) :
    ∃ e1, (mergeEntry writeOk s rest acc kp).file = acc.file ++ e1 := by
  unfold mergeEntry
  split_ifs with h1 h2
  · exact ⟨[], by simp⟩
  · exact ⟨_, rfl⟩
  · exact ⟨[], by simp⟩

lemma foldl_mergeEntry_ext (writeOk : Nat → Bool) (s : Segment) (rest : List Segment)
    (l : List (Bytes × Nat)) :
    ∀ acc : MergeAcc, ∃ ext, (l.foldl (mergeEntry writeOk s rest) acc).file =
      acc.file ++ ext := by
  induction l with
  | nil => intro acc; exact ⟨[], by simp⟩
  | cons kp t ih =>
    intro acc
    rw [List.foldl_cons]
    obtain ⟨e1, he1⟩ := mergeEntry_ext writeOk s rest acc kp
    obtain ⟨ext, hext⟩ := ih (mergeEntry writeOk s rest acc kp)
    exact ⟨e1 ++ ext, by rw [hext, he1, List.append_assoc]⟩

lemma foldl_mergeEntry_write (s : Segment) (rest : List Segment) (k : Bytes) (pos : Nat)
    (l : List (Bytes × Nat)) :
    ∀ acc : MergeAcc, acc.offset = acc.file.length →
      (l.map Prod.fst).Nodup → (k, pos) ∈ l →
      IsKeyInNewerSegments rest k = false →
      12 + k.length + ((s.GetFromDataSegment pos).getD []).length < 4294967296 →
      ∃ off, indexLookup (l.foldl (mergeEntry allOk s rest) acc).index k = some off ∧
        readValue ((l.foldl (mergeEntry allOk s rest) acc).file.drop off) =
          some ((s.GetFromDataSegment pos).getD []) := by
  induction l with
  | nil => intro acc _ _ hmem; cases hmem
  | cons kp t ih =>
    intro acc hacc hnodup hmem hnew hsmall
    rw [List.map_cons, List.nodup_cons] at hnodup
    rcases List.mem_cons.mp hmem with heq | hmem'
    · -- the head entry is (k, pos): it is written here
      rw [List.foldl_cons]
      have hkp1 : kp.1 = k := by rw [← heq]
      have hkp2 : kp.2 = pos := by rw [← heq]
      have hstep : mergeEntry allOk s rest acc kp =
          ⟨acc.file ++ (entry.Encode ⟨k, (s.GetFromDataSegment pos).getD []⟩),
            indexInsert acc.index k acc.offset,
            acc.offset + (entry.Encode ⟨k, (s.GetFromDataSegment pos).getD []⟩).length,
            acc.wctr + 1⟩ := by
        unfold mergeEntry
        rw [hkp1, hkp2, if_neg (by rw [hnew]; exact Bool.false_ne_true)]
        simp [allOk]
      rw [hstep]
      have hframe := foldl_mergeEntry_frame allOk s rest k t
        ⟨acc.file ++ (entry.Encode ⟨k, (s.GetFromDataSegment pos).getD []⟩),
          indexInsert acc.index k acc.offset,
          acc.offset + (entry.Encode ⟨k, (s.GetFromDataSegment pos).getD []⟩).length,
          acc.wctr + 1⟩
        (fun p hp => Or.inl (fun hc => hnodup.1 (by
          rw [hkp1, ← hc]
          exact List.mem_map_of_mem Prod.fst hp)))
      obtain ⟨ext, hext⟩ := foldl_mergeEntry_ext allOk s rest t
        ⟨acc.file ++ (entry.Encode ⟨k, (s.GetFromDataSegment pos).getD []⟩),
          indexInsert acc.index k acc.offset,
          acc.offset + (entry.Encode ⟨k, (s.GetFromDataSegment pos).getD []⟩).length,
          acc.wctr + 1⟩
      refine ⟨acc.offset, ?_, ?_⟩
      · rw [hframe]
        exact indexLookup_insert_self _ _ _
      · rw [hext]
        simp only
        rw [hacc, drop_append_le _ _ _ (by simp), List.drop_left]
        exact readValue_encode ⟨k, (s.GetFromDataSegment pos).getD []⟩ _ hsmall
    · -- the matching entry is further down the list
      rw [List.foldl_cons]
      have hkne : kp.1 ≠ k := by
        intro hc
        refine hnodup.1 ?_
        rw [hc]
        exact List.mem_map_of_mem Prod.fst hmem'
      exact ih _ (mergeEntry_wf allOk s rest acc kp hacc) hnodup.2 hmem' hnew hsmall

lemma isKeyInNewer_false_lookup (segs : List Segment) (k : Bytes)
    (h : IsKeyInNewerSegments segs k = false) :
    ∀ s ∈ segs, indexLookup s.index k = none := by
  intro s hs
  rw [IsKeyInNewerSegments, List.any_eq_false] at h
  have h2 := h s hs
  cases hlk : indexLookup s.index k with
  | none => rfl
  | some p => rw [hlk] at h2; exact absurd rfl h2

lemma entries_ne_of_lookup_none (s : Segment) (k : Bytes)
    (h : indexLookup s.index k = none) : ∀ kp ∈ s.index, kp.1 ≠ k := by
  intro kp hkp hc
  have hkp' : (k, kp.2) ∈ s.index := by
    have hkpeq : kp = (k, kp.2) := by
      cases kp; simp only at hc ⊢; rw [hc]
    rwa [hkpeq] at hkp
  have := indexLookup_isSome_of_mem s.index k kp.2 hkp'
  rw [h] at this
  cases this

lemma mergeSegments_wf (writeOk : Nat → Bool) (segs : List Segment) :
    ∀ acc : MergeAcc, acc.offset = acc.file.length →
      (mergeSegments writeOk segs acc).offset = (mergeSegments writeOk segs acc).file.length := by
  induction segs with
  | nil => intro acc h; exact h
  | cons s rest ih =>
    intro acc h
    rw [mergeSegments]
    exact ih _ (foldl_mergeEntry_wf writeOk s rest s.index acc h)

lemma mergeSegments_frame (writeOk : Nat → Bool) (segs : List Segment) (k : Bytes) :
    ∀ acc : MergeAcc, IsKeyInNewerSegments segs k = false →
      indexLookup (mergeSegments writeOk segs acc).index k = indexLookup acc.index k := by
  induction segs with
  | nil => intro acc _; rfl
  | cons s rest ih =>
    intro acc h
    have hparts : (indexLookup s.index k).isSome = false ∧
        IsKeyInNewerSegments rest k = false := by
      rw [IsKeyInNewerSegments, List.any_cons, Bool.or_eq_false_iff] at h
      exact ⟨h.1, h.2⟩
    have hlks : indexLookup s.index k = none := by
      cases hlk : indexLookup s.index k with
      | none => rfl
      | some p => rw [hlk] at hparts; cases hparts.1
    rw [mergeSegments, ih _ hparts.2]
    exact foldl_mergeEntry_frame writeOk s rest k s.index acc
      (fun kp hkp => Or.inl (entries_ne_of_lookup_none s k hlks kp hkp))

lemma mergeSegments_ext (writeOk : Nat → Bool) (segs : List Segment) :
    ∀ acc : MergeAcc, ∃ ext, (mergeSegments writeOk segs acc).file = acc.file ++ ext := by
  induction segs with
  | nil => intro acc; exact ⟨[], by simp [mergeSegments]⟩
  | cons s rest ih =>
    intro acc
    rw [mergeSegments]
    obtain ⟨e1, he1⟩ := foldl_mergeEntry_ext writeOk s rest s.index acc
    obtain ⟨ext, hext⟩ := ih (s.index.foldl (mergeEntry writeOk s rest) acc)
    exact ⟨e1 ++ ext, by rw [hext, he1, List.append_assoc]⟩

lemma newestHolder_isSome (segs : List Segment) (k : Bytes)
    (hk : IsKeyInNewerSegments segs k = true) : (newestHolder segs k).isSome = true := by
  unfold newestHolder
  rw [List.find?_isSome]
  rw [IsKeyInNewerSegments, List.any_eq_true] at hk
  obtain ⟨s, hs, hp⟩ := hk
  exact ⟨s, List.mem_reverse.mpr hs, hp⟩

lemma newestHolder_spec (segs : List Segment) (k : Bytes) (s : Segment)
    (h : newestHolder segs k = some s) :
    s ∈ segs ∧ (indexLookup s.index k).isSome = true := by
  unfold newestHolder at h
  have hp := List.find?_some h
  exact ⟨List.mem_reverse.mp (List.mem_of_find?_eq_some h), by simpa using hp⟩

lemma newestHolder_cons_held (s : Segment) (rest : List Segment) (k : Bytes)
    (h : IsKeyInNewerSegments rest k = true) :
    newestHolder (s :: rest) k = newestHolder rest k := by
  unfold newestHolder
  rw [List.reverse_cons, List.find?_append]
  have hsome : (rest.reverse.find? (fun s => (indexLookup s.index k).isSome)).isSome = true := by
    rw [List.find?_isSome]
    rw [IsKeyInNewerSegments, List.any_eq_true] at h
    obtain ⟨s', hs', hp⟩ := h
    exact ⟨s', List.mem_reverse.mpr hs', hp⟩
  cases hf : rest.reverse.find? (fun s => (indexLookup s.index k).isSome) with
  | none => rw [hf] at hsome; cases hsome
  | some x => rfl

lemma newestHolder_cons_not_held (s : Segment) (rest : List Segment) (k : Bytes)
    (h : IsKeyInNewerSegments rest k = false)
    (hs : (indexLookup s.index k).isSome = true) :
    newestHolder (s :: rest) k = some s := by
  unfold newestHolder
  rw [List.reverse_cons, List.find?_append]
  have hnone : rest.reverse.find? (fun s => (indexLookup s.index k).isSome) = none := by
    rw [List.find?_eq_none]
    intro x hx
    have := isKeyInNewer_false_lookup rest k h x (List.mem_reverse.mp hx)
    simp [this]
  rw [hnone]
  simp [List.find?, hs]

/-- The heart of C1/C10: with every output write succeeding, the merge
binds each key held by some mergeable segment to an offset at which the
output file yields exactly the value obtained from the newest holder (the
empty string if that read failed). -/
lemma mergeSegments_newest (segs : List Segment) (k : Bytes) :
    ∀ acc : MergeAcc, acc.offset = acc.file.length →
      (∀ s ∈ segs, (s.index.map Prod.fst).Nodup ∧
        ∀ kp ∈ s.index,
          12 + kp.1.length + ((s.GetFromDataSegment kp.2).getD []).length < 4294967296) →
      IsKeyInNewerSegments segs k = true →
      ∃ off, indexLookup (mergeSegments allOk segs acc).index k = some off ∧
        readValue ((mergeSegments allOk segs acc).file.drop off) =
          some (mergeValue segs k) := by
  induction segs with
  | nil => intro acc _ _ hk; rw [IsKeyInNewerSegments] at hk; cases hk
  | cons s rest ih =>
    intro acc hacc hwf hk
    rw [mergeSegments]
    cases hrest : IsKeyInNewerSegments rest k with
    | true =>
      -- a strictly newer mergeable segment holds the key: this segment's
      -- binding is skipped and the recursive merge provides the result
      obtain ⟨off, hoff, hread⟩ := ih (s.index.foldl (mergeEntry allOk s rest) acc)
        (foldl_mergeEntry_wf allOk s rest s.index acc hacc)
        (fun s' hs' => hwf s' (List.mem_cons_of_mem _ hs')) hrest
      refine ⟨off, hoff, ?_⟩
      rw [hread]
      unfold mergeValue newestValue
      rw [newestHolder_cons_held s rest k hrest]
    | false =>
      -- this segment is the newest holder: its entry is written here
      have hsome : (indexLookup s.index k).isSome = true := by
        rw [IsKeyInNewerSegments, List.any_cons] at hk
        rcases Bool.or_eq_true_iff.mp hk with h1 | h2
        · exact h1
        · have h2' : IsKeyInNewerSegments rest k = true := h2
          rw [hrest] at h2'
          cases h2'
      obtain ⟨pos, hpos⟩ := Option.isSome_iff_exists.mp hsome
      have hmem : (k, pos) ∈ s.index := indexLookup_mem s.index k pos hpos
      have hws := hwf s (List.mem_cons_self _ _)
      obtain ⟨off, hoff, hread⟩ := foldl_mergeEntry_write s rest k pos s.index acc hacc
        hws.1 hmem hrest (hws.2 (k, pos) hmem)
      have hframe := mergeSegments_frame allOk rest k
        (s.index.foldl (mergeEntry allOk s rest) acc) hrest
      obtain ⟨ext, hext⟩ := mergeSegments_ext allOk rest
        (s.index.foldl (mergeEntry allOk s rest) acc)
      refine ⟨off, by rw [hframe, hoff], ?_⟩
      have hofflen : off ≤ (s.index.foldl (mergeEntry allOk s rest) acc).file.length := by
        have h8 := readValue_bounds _ _ hread
        simp only [List.length_drop] at h8
        omega
      rw [hext, drop_append_le _ _ _ hofflen, readValue_append _ _ _ hread]
      unfold mergeValue newestValue
      rw [newestHolder_cons_not_held s rest k hrest hsome]
      simp [hpos]

/-- Claim C1: with every read and write of the merge succeeding, the
compaction output indexes every key present in any merged segment, and the
value its file yields for such a key is the value of the newest merged
segment holding it. -/
theorem compaction_preserves_newest_values (db : Db)
    (hwf : ∀ s ∈ db.segments.dropLast, (s.index.map Prod.fst).Nodup ∧
      ∀ kp ∈ s.index, (s.GetFromDataSegment kp.2).isSome = true ∧
        12 + kp.1.length + ((s.GetFromDataSegment kp.2).getD []).length < 4294967296)
    (k : Bytes) (hk : IsKeyInNewerSegments db.segments.dropLast k = true) :
    ∃ off v,
      indexLookup ((db.performOldSegmentsCompaction true allOk).segments.headD
        ⟨"", [], []⟩).index k = some off ∧
      ((db.performOldSegmentsCompaction true allOk).segments.headD
        ⟨"", [], []⟩).GetFromDataSegment off = some v ∧
      newestValue db.segments.dropLast k = some v := by
  have hhead : (db.performOldSegmentsCompaction true allOk).segments.headD ⟨"", [], []⟩ =
      ⟨defaultFileName ++ toString db.lastSegmentIndex,
        (mergeSegments allOk db.segments.dropLast ⟨[], [], 0, 0⟩).file,
        (mergeSegments allOk db.segments.dropLast ⟨[], [], 0, 0⟩).index⟩ := by
    simp [Db.performOldSegmentsCompaction, Db.generateNewFileName]
  obtain ⟨off, hoff, hread⟩ := mergeSegments_newest db.segments.dropLast k ⟨[], [], 0, 0⟩
    rfl (fun s hs => ⟨(hwf s hs).1, fun kp hkp => ((hwf s hs).2 kp hkp).2⟩) hk
  refine ⟨off, mergeValue db.segments.dropLast k, ?_, ?_, ?_⟩
  · rw [hhead]
    exact hoff
  · rw [hhead, Segment.GetFromDataSegment]
    exact hread
  · -- the newest holder's read succeeds, so the merged value is its value
    obtain ⟨s, hs⟩ := Option.isSome_iff_exists.mp (newestHolder_isSome _ k hk)
    obtain ⟨hmem, hlks⟩ := newestHolder_spec _ k s hs
    obtain ⟨pos, hpos⟩ := Option.isSome_iff_exists.mp hlks
    have hreads := ((hwf s hmem).2 (k, pos) (indexLookup_mem s.index k pos hpos)).1
    obtain ⟨v, hv⟩ := Option.isSome_iff_exists.mp hreads
    unfold mergeValue newestValue
    rw [hs]
    simp [hpos, hv]

/-- Witness for C1 on the concrete three-segment engine: both sealed
segments hold key `"2"`, and the merged value is the newer one. -/
theorem compaction_preserves_newest_values_witness :
    (∀ s ∈ dbThree.segments.dropLast, (s.index.map Prod.fst).Nodup ∧
      ∀ kp ∈ s.index, (s.GetFromDataSegment kp.2).isSome = true ∧
        12 + kp.1.length + ((s.GetFromDataSegment kp.2).getD []).length < 4294967296) ∧
    IsKeyInNewerSegments dbThree.segments.dropLast [50] = true ∧
    (∃ off v,
      indexLookup ((dbThree.performOldSegmentsCompaction true allOk).segments.headD
        ⟨"", [], []⟩).index [50] = some off ∧
      ((dbThree.performOldSegmentsCompaction true allOk).segments.headD
        ⟨"", [], []⟩).GetFromDataSegment off = some v ∧
      newestValue dbThree.segments.dropLast [50] = some v) :=
  ⟨by decide, by decide, compaction_preserves_newest_values dbThree (by decide) [50] (by decide)⟩

/-- A sealed segment whose index points at offset 0 of an empty file: the
positional value read fails. -/
def segBroken : Segment := ⟨"current-data0", [], [([107], 0)]⟩

/-- Engine whose only mergeable segment is `segBroken`. -/
def dbBroken : Db := ⟨[segBroken, ⟨"current-data1", [], []⟩], 0, 100, 2⟩

/-- Claim C10: when the merge's read of a key's value fails, the error is
discarded and the key is re-encoded with the empty value, so after the
compaction pass `Get` of that key returns the empty string. -/
theorem compaction_read_failure_writes_empty_value (db : Db)
    (hwf : ∀ s ∈ db.segments.dropLast, (s.index.map Prod.fst).Nodup ∧
      ∀ kp ∈ s.index,
        12 + kp.1.length + ((s.GetFromDataSegment kp.2).getD []).length < 4294967296)
    (k : Bytes) (s : Segment) (pos : Nat)
    (hhold : newestHolder db.segments.dropLast k = some s)
    (hpos : indexLookup s.index k = some pos)
    (hfail : s.GetFromDataSegment pos = none)
    (hactive : indexLookup db.getLastDataSegment.index k = none) :
    (db.performOldSegmentsCompaction true allOk).get k = Except.ok [] := by
  have hk : IsKeyInNewerSegments db.segments.dropLast k = true := by
    obtain ⟨hmem, _⟩ := newestHolder_spec _ k s hhold
    rw [IsKeyInNewerSegments, List.any_eq_true]
    exact ⟨s, hmem, by rw [hpos]; rfl⟩
  obtain ⟨off, hoff, hread⟩ := mergeSegments_newest db.segments.dropLast k ⟨[], [], 0, 0⟩
    rfl hwf hk
  have hmv : mergeValue db.segments.dropLast k = [] := by
    unfold mergeValue newestValue
    rw [hhold]
    simp [hpos, hfail]
  have hseg : (db.performOldSegmentsCompaction true allOk).segments =
      [⟨defaultFileName ++ toString db.lastSegmentIndex,
          (mergeSegments allOk db.segments.dropLast ⟨[], [], 0, 0⟩).file,
          (mergeSegments allOk db.segments.dropLast ⟨[], [], 0, 0⟩).index⟩,
        db.getLastDataSegment] := by
    simp [Db.performOldSegmentsCompaction, Db.generateNewFileName, Db.getLastDataSegment]
  rw [Db.get, Db.getDataSegmentAndPosition, hseg]
  simp only [List.reverse_cons, List.reverse_nil, List.nil_append, List.cons_append,
    List.findSome?_cons]
  rw [hactive]
  simp only [Option.map_none']
  rw [hoff]
  simp only [Option.map_some']
  rw [Segment.GetFromDataSegment]
  simp only
  rw [hread, hmv]

/-- Witness for C10 on the engine with a broken index entry. -/
theorem compaction_read_failure_writes_empty_value_witness :
    (∀ s ∈ dbBroken.segments.dropLast, (s.index.map Prod.fst).Nodup ∧
      ∀ kp ∈ s.index,
        12 + kp.1.length + ((s.GetFromDataSegment kp.2).getD []).length < 4294967296) ∧
    newestHolder dbBroken.segments.dropLast [107] = some segBroken ∧
    Segment.GetFromDataSegment segBroken 0 = none ∧
    (dbBroken.performOldSegmentsCompaction true allOk).get [107] = Except.ok [] :=
  ⟨by decide, by decide, by decide,
    compaction_read_failure_writes_empty_value dbBroken (by decide) [107] segBroken 0
      (by decide) (by decide) (by decide) (by decide)⟩

/-! ## Recovery over well-formed and truncated logs (C5) -/

/-- The on-disk bytes of a list of records appended in order. -/
def encodeAll (rs : List entry) : Bytes :=
  rs.foldr (fun r acc => r.Encode ++ acc) []

lemma encodeAll_cons (r : entry) (rs : List entry) :
    encodeAll (r :: rs) = r.Encode ++ encodeAll rs := rfl

lemma recoverAux_step (fuel : Nat) (bytes : Bytes) (idx : List (Bytes × Nat)) (off : Nat) :
    recoverAux (fuel + 1) bytes idx off =
      if bytes = [] then Except.ok (idx, off)
      else if bytes.length < 4 then Except.error "header out of range"
      else
        if min (readLe32 bytes) (min bytes.length bufferSize) ≠ readLe32 bytes then
          Except.error "corrupted file"
        else
          match entry.Decode (bytes.take (readLe32 bytes)) with
          | none => Except.error "decode failure"
          | some e =>
            recoverAux fuel (bytes.drop (readLe32 bytes)) (indexInsert idx e.key off)
              (off + readLe32 bytes) := rfl

lemma readLe32_encode_head (r : entry) (rest : Bytes)
    (h : 12 + r.key.length + r.value.length < 4294967296) :
    readLe32 (r.Encode ++ rest) = 12 + r.key.length + r.value.length := by
  have hsplit : r.Encode ++ rest =
      le32 (12 + r.key.length + r.value.length) ++
        (le32 r.key.length ++ (r.key ++ (le32 r.value.length ++ (r.value ++ rest)))) := by
    simp [entry.Encode, List.append_assoc]
  rw [hsplit, readLe32_le32_append _ _ h]

/-- Consuming one whole record at the head of the remaining stream: the
header announces exactly the record's byte count, the buffered read
succeeds, the record decodes, and the loop advances. -/
lemma recoverAux_record_step (r : entry) (rest : Bytes) (fuel : Nat)
    (idx : List (Bytes × Nat)) (off : Nat)
    (hrlen : r.Encode.length ≤ bufferSize) :
    recoverAux (fuel + 1) (r.Encode ++ rest) idx off =
      recoverAux fuel rest (indexInsert idx r.key off)
        (off + (12 + r.key.length + r.value.length)) := by
  have hEnc : r.Encode.length = 12 + r.key.length + r.value.length := entry.encode_length r
  have hbs : bufferSize = 8192 := rfl
  have hsm : 12 + r.key.length + r.value.length < 4294967296 := by omega
  have hlen : (r.Encode ++ rest).length = r.Encode.length + rest.length := by simp
  rw [recoverAux_step]
  rw [if_neg (by
    apply List.ne_nil_of_length_pos
    omega)]
  rw [if_neg (by omega)]
  rw [readLe32_encode_head r _ hsm]
  rw [if_neg (by omega)]
  have htake : (r.Encode ++ rest).take (12 + r.key.length + r.value.length) = r.Encode := by
    rw [← hEnc, List.take_left]
  have hdrop : (r.Encode ++ rest).drop (12 + r.key.length + r.value.length) = rest := by
    rw [← hEnc, List.drop_left]
  rw [htake, decode_encode r hsm]
  simp only
  rw [hdrop]

/-- Replay of a log that ends in a record header announcing more bytes
than remain returns the fatal `"corrupted file"` error. -/
lemma recoverAux_truncated (rs : List entry) (t : Bytes)
    (hr : ∀ r ∈ rs, r.Encode.length ≤ bufferSize)
    (ht4 : 4 ≤ t.length) (htr : t.length < readLe32 t) :
    ∀ fuel (idx : List (Bytes × Nat)) (off : Nat), (encodeAll rs ++ t).length < fuel →
      recoverAux fuel (encodeAll rs ++ t) idx off = Except.error "corrupted file" := by
  induction rs with
  | nil =>
    intro fuel idx off hfuel
    have hnil : encodeAll [] ++ t = t := by simp [encodeAll]
    rw [hnil] at hfuel ⊢
    cases fuel with
    | zero => omega
    | succ f =>
      rw [recoverAux_step]
      rw [if_neg (by intro hc; rw [hc] at ht4; simp at ht4)]
      rw [if_neg (by omega)]
      rw [if_pos (by
        have hbs : bufferSize = 8192 := rfl
        omega)]
  | cons r rs ih =>
    intro fuel idx off hfuel
    have hrlen := hr r (List.mem_cons_self _ _)
    have hEnc : r.Encode.length = 12 + r.key.length + r.value.length := entry.encode_length r
    rw [encodeAll_cons, List.append_assoc] at hfuel ⊢
    have hlen : (r.Encode ++ (encodeAll rs ++ t)).length =
        r.Encode.length + (encodeAll rs ++ t).length := by simp
    cases fuel with
    | zero => omega
    | succ f =>
      rw [recoverAux_record_step r _ f idx off hrlen]
      exact ih (fun x hx => hr x (List.mem_cons_of_mem _ hx)) f _ _ (by omega)

/-- Replay of a clean concatenation of whole records reaches the empty
peek and reports clean end of stream. -/
lemma recoverAux_clean (rs : List entry) (hr : ∀ r ∈ rs, r.Encode.length ≤ bufferSize) :
    ∀ fuel (idx : List (Bytes × Nat)) (off : Nat), (encodeAll rs).length < fuel →
      ∃ res, recoverAux fuel (encodeAll rs) idx off = Except.ok res := by
  induction rs with
  | nil =>
    intro fuel idx off hfuel
    cases fuel with
    | zero => omega
    | succ f =>
      refine ⟨(idx, off), ?_⟩
      rw [recoverAux_step, if_pos (by simp [encodeAll])]
  | cons r rs ih =>
    intro fuel idx off hfuel
    have hrlen := hr r (List.mem_cons_self _ _)
    have hEnc : r.Encode.length = 12 + r.key.length + r.value.length := entry.encode_length r
    rw [encodeAll_cons] at hfuel ⊢
    have hlen : (r.Encode ++ encodeAll rs).length =
        r.Encode.length + (encodeAll rs).length := by simp
    cases fuel with
    | zero => omega
    | succ f =>
      rw [recoverAux_record_step r _ f idx off hrlen]
      exact ih (fun x hx => hr x (List.mem_cons_of_mem _ hx)) f _ _ (by omega)

/-- Claim C5 counterexample: the active file holds one whole record and a
trailing record cut off after 5 of its 14 bytes (its 4-byte header is
intact).  Startup replay does not treat this as clean end-of-stream:
engine construction fails with the fatal `"corrupted file"` error. -/
theorem truncated_trailing_record_fails_construction :
    newDatabase 45 (entry.Encode ⟨[107], [118]⟩ ++ (entry.Encode ⟨[97], [98]⟩).take 5) =
      Except.error "corrupted file" := by
  rfl

/-- Claim C5 amended: when the trailing record's intact header claims more
bytes than remain on disk, replay stops there with the `"corrupted file"`
error and engine construction fails; a log that is a clean concatenation
of whole records replays successfully. -/
theorem recover_truncation_aborts_construction (sz : Nat) (rs : List entry) (t : Bytes)
    (hr : ∀ r ∈ rs, r.Encode.length ≤ bufferSize)
    (ht4 : 4 ≤ t.length) (htr : t.length < readLe32 t) :
    newDatabase sz (encodeAll rs ++ t) = Except.error "corrupted file" ∧
      ∃ db, newDatabase sz (encodeAll rs) = Except.ok db := by
  constructor
  · unfold newDatabase recover
    rw [recoverAux_truncated rs t hr ht4 htr _ [] 0 (by omega)]
  · unfold newDatabase recover
    obtain ⟨res, hres⟩ := recoverAux_clean rs hr ((encodeAll rs).length + 1) [] 0 (by omega)
    obtain ⟨idx, off⟩ := res
    rw [hres]
    exact ⟨_, rfl⟩

/-- Witness for the amended C5. -/
theorem recover_truncation_aborts_construction_witness :
    (∀ r ∈ [(⟨[107], [118]⟩ : entry)], r.Encode.length ≤ bufferSize) ∧
      4 ≤ ((entry.Encode ⟨[97], [98]⟩).take 5).length ∧
      ((entry.Encode ⟨[97], [98]⟩).take 5).length <
        readLe32 ((entry.Encode ⟨[97], [98]⟩).take 5) ∧
      (newDatabase 45 (encodeAll [⟨[107], [118]⟩] ++ (entry.Encode ⟨[97], [98]⟩).take 5) =
          Except.error "corrupted file" ∧
        ∃ db, newDatabase 45 (encodeAll [⟨[107], [118]⟩]) = Except.ok db) :=
  ⟨by decide, by decide, by decide,
    recover_truncation_aborts_construction 45 [⟨[107], [118]⟩] _ (by decide) (by decide)
      (by decide)⟩

end Datastore
